import Mathlib

/-!
Verification of the protean screen-text monitor (Rust) against its
natural-language specification.

The development shallowly embeds the relevant source functions:

* `src/pokemon.rs`: `extract_pokemon_name`, `normalize_pokemon_names`
* `src/main.rs`: `extract_pokemon_name` (duplicate implementation), the
  battle-detection step and restart/pause bookkeeping of `monitor_text`
* `src/ocr.rs`: the histogram-stretch step of `preprocess_image` and
  `calculate_otsu_threshold`

Rust strings are modelled as lists of Unicode scalar values (`RStr`);
byte indices used by the source are recovered through the UTF-8 encoded
length of each scalar value, so that byte-slicing at a non-boundary is
visible as the panic case (`Option.none` of the outer `Option`).
-/

namespace Protean

/-- A Rust `String`/`&str`, modelled as its list of Unicode scalar values. -/
abbrev RStr := List Nat

/-- Number of bytes of the UTF-8 encoding of a Unicode scalar value. -/
def utf8Len (c : Nat) : Nat :=
  if c < 0x80 then 1 else if c < 0x800 then 2 else if c < 0x10000 then 3 else 4

/-- Byte length of the UTF-8 encoding of a string (Rust `str::len`). -/
def utf8Size (s : RStr) : Nat := (s.map utf8Len).sum

/-- Rust `char::is_whitespace`: the Unicode `White_Space` property. -/
def isRustWhitespace (c : Nat) : Bool :=
  if c = 0x09 ∨ c = 0x0A ∨ c = 0x0B ∨ c = 0x0C ∨ c = 0x0D ∨ c = 0x20
     ∨ c = 0x85 ∨ c = 0xA0 ∨ c = 0x1680
     ∨ (0x2000 ≤ c ∧ c ≤ 0x200A)
     ∨ c = 0x2028 ∨ c = 0x2029 ∨ c = 0x202F ∨ c = 0x205F ∨ c = 0x3000
  then true else false

/-- Rust `u8::to_ascii_lowercase` on a scalar value (ASCII-only folding). -/
def asciiLower (c : Nat) : Nat :=
  if 0x41 ≤ c ∧ c ≤ 0x5A then c + 0x20 else c

/-- Rust `char::eq_ignore_ascii_case`. -/
def eqIgnoreAsciiCase (a b : Nat) : Bool :=
  asciiLower a == asciiLower b

/-- Rust `char::to_uppercase` (Unicode Default Case Conversion), given for
every scalar value below `0x100` (ASCII and the full Latin-1 supplement,
including the multi-character expansion of ß and the out-of-Latin-1 targets
of µ and ÿ).  Scalar values `0x100` and above are kept unchanged; every
string evaluated under `to_uppercase` in this development stays below
`0x100`, and the universally quantified theorems about uppercasing are
restricted to ASCII strings. -/
def uppercaseChar (c : Nat) : List Nat :=
  if 0x61 ≤ c ∧ c ≤ 0x7A then [c - 0x20]
  else if c = 0xB5 then [0x39C]
  else if c = 0xDF then [0x53, 0x53]
  else if c = 0xFF then [0x178]
  else if 0xE0 ≤ c ∧ c ≤ 0xFE ∧ c ≠ 0xF7 then [c - 0x20]
  else [c]

/-- Rust `str::to_uppercase`: concatenation of the per-character uppercase
expansions. -/
def to_uppercase (s : RStr) : RStr := (s.map uppercaseChar).flatten

/-- Rust `str::find(&str)`: byte offset of the first occurrence of `needle`
in `hay`.  In valid UTF-8 a match of a well-formed needle can only start on
a character boundary, so searching suffix-by-suffix over scalar values and
accumulating encoded byte lengths computes exactly the source's byte
offset. -/
def findSub (hay needle : RStr) : Option Nat :=
  match hay with
  | [] => if needle.isEmpty then some 0 else none
  | c :: rest =>
    if needle.isPrefixOf (c :: rest) then some 0
    else (findSub rest needle).map (fun n => utf8Len c + n)

/-- Rust byte slicing `&s[i..]`.  Returns `none` exactly when the source
panics: the byte index is out of bounds or not on a character boundary. -/
def sliceFrom (s : RStr) (i : Nat) : Option RStr :=
  if i = 0 then some s
  else match s with
    | [] => none
    | c :: rest => if utf8Len c ≤ i then sliceFrom rest (i - utf8Len c) else none

/-- Byte offset component of `s.char_indices().nth(k)`. -/
def nthCharOffset (s : RStr) (k : Nat) : Option Nat :=
  match s, k with
  | [], _ => none
  | _ :: _, 0 => some 0
  | c :: rest, k + 1 => (nthCharOffset rest k).map (fun n => utf8Len c + n)

/-- First item of Rust `str::split_whitespace`, applied to a scalar-value
list: skip leading whitespace, then take the maximal run of
non-whitespace; `none` when nothing remains. -/
def firstTokenOpt (s : RStr) : Option RStr :=
  let t := s.dropWhile isRustWhitespace
  if t.isEmpty then none else some (t.takeWhile fun c => !isRustWhitespace c)

/-- The marker phrase `"VS. WILD"` (`VS_WILD_PATTERN` in `src/pokemon.rs`,
and the literal used in `src/main.rs`). -/
def VS_WILD_PATTERN : RStr := [0x56, 0x53, 0x2E, 0x20, 0x57, 0x49, 0x4C, 0x44]

namespace Main

/-- `extract_pokemon_name` from `src/main.rs` (lines 262-278): uppercase the
whole text, find the marker byte offset there, then byte-slice the
*original* text at that offset plus the marker's byte length.  The outer
`Option` is the panic behaviour of the byte slice: `none` means the source
panics (`byte index is not a char boundary`). -/
def extract_pokemon_name (text : RStr) : Option (Option RStr) :=
  let text_upper := to_uppercase text
  match findSub text_upper VS_WILD_PATTERN with
  | some vs_pos =>
    let after_wild := vs_pos + utf8Size VS_WILD_PATTERN
    match sliceFrom text after_wild with
    | none => none
    | some rest =>
      let remaining := rest.dropWhile isRustWhitespace
      match firstTokenOpt remaining with
      | some pokemon => if pokemon.isEmpty then some none else some (some pokemon)
      | none => some none
  | none => some none

end Main

namespace Pokemon

/-- The predicate of the `position` call in `src/pokemon.rs`
`extract_pokemon_name`: the marker compared character-by-character with
`eq_ignore_ascii_case` against the suffix, `zip` truncating the comparison
when fewer characters than the marker remain (the `take` is redundant since
the marker is 8 ASCII characters). -/
def truncMarkerMatch (s : RStr) : Bool :=
  (s.zip VS_WILD_PATTERN).all fun p => eqIgnoreAsciiCase p.1 p.2

/-- `text.char_indices().position(..)` from `src/pokemon.rs`: the *ordinal*
(not the byte offset) of the first character whose suffix satisfies
`truncMarkerMatch`. -/
def findTruncIdx (s : RStr) : Option Nat :=
  match s with
  | [] => none
  | _ :: rest =>
    if truncMarkerMatch s then some 0
    else (findTruncIdx rest).map (fun n => n + 1)

/-- `extract_pokemon_name` from `src/pokemon.rs` (lines 15-39).  Note that
the source uses the character ordinal returned by `position` as a *byte*
index in `text[vs_pos..]` and `text[after_wild..]`; the outer `Option` is
`none` exactly when such a slice panics on a non-boundary byte index. -/
def extract_pokemon_name (text : RStr) : Option (Option RStr) :=
  match findTruncIdx text with
  | none => some none
  | some vs_pos =>
    match sliceFrom text vs_pos with
    | none => none
    | some sliced =>
      match nthCharOffset sliced (VS_WILD_PATTERN.length) with
      | none => some none
      | some off =>
        let after_wild := vs_pos + off
        match sliceFrom text after_wild with
        | none => none
        | some rest =>
          let remaining := rest.dropWhile isRustWhitespace
          match firstTokenOpt remaining with
          | none => some none
          | some tok => if tok.isEmpty then some none else some (some tok)

end Pokemon

/-- Spec-side (claim C3 wording): the marker matches the whole head of `s`
under ASCII case-insensitive comparison, all eight characters present. -/
def specMarkerHere (s : RStr) : Bool :=
  decide (VS_WILD_PATTERN.length ≤ s.length) &&
  ((s.zip VS_WILD_PATTERN).all fun p => eqIgnoreAsciiCase p.1 p.2)

/-- Spec-side (claim C3 wording): character index of the first ASCII
case-insensitive occurrence of the marker in `s`. -/
def specFirstOcc (s : RStr) : Option Nat :=
  match s with
  | [] => none
  | _ :: rest =>
    if specMarkerHere s then some 0
    else (specFirstOcc rest).map (fun n => n + 1)

/-- A string is ASCII when every scalar value is below `0x80`. -/
def isAsciiStr (s : RStr) : Bool := s.all fun c => c < 0x80

/-! ## Battle-detection state machine (`monitor_text`, src/main.rs lines 392-424)

The loop keeps `pending_pokemon : Option<String>`, `no_pattern_count : u32`
and `text_counts : HashMap<String, usize>` across ticks.  `last_text` is
omitted from the state: it only gates `println!` logging and is never read
by the detection, counting, or emission logic.  The hash map is modelled as
an association list in iteration order, with insertion appending. -/

/-- Battle-detection state: `pending_pokemon`, `no_pattern_count`,
`text_counts`. -/
structure BState where
  pending : Option RStr
  noPat : Nat
  counts : List (RStr × Nat)
deriving DecidableEq, Repr

/-- `*text_counts.entry(k).or_insert(0) += 1`. -/
def bump (counts : List (RStr × Nat)) (k : RStr) : List (RStr × Nat) :=
  match counts with
  | [] => [(k, 1)]
  | (k₀, c₀) :: rest => if k₀ = k then (k₀, c₀ + 1) :: rest else (k₀, c₀) :: bump rest k

/-- One tick of the text-processing branch of `monitor_text`, taking the
result of `extract_pokemon_name` on the tick's OCR text.  With a pattern:
reset `no_pattern_count` and make the name pending (the `should_update`
test only suppresses a redundant store and a log line).  Without: bump the
counter; once it reaches `config.empty_threshold`, take the pending name,
count it, and reset the counter.  The second component is the emitted
"Counted" event of that tick, if any. -/
def battleStep (empty_threshold : Nat) (s : BState) (pat : Option RStr) :
    BState × Option RStr :=
  match pat with
  | some name => (⟨some name, 0, s.counts⟩, none)
  | none =>
    let n := s.noPat + 1
    if empty_threshold ≤ n then
      match s.pending with
      | some p => (⟨none, 0, bump s.counts p⟩, some p)
      | none => (⟨none, 0, s.counts⟩, none)
    else (⟨s.pending, n, s.counts⟩, none)

/-- Iterate `battleStep` over a tick sequence, collecting the per-tick
emissions. -/
def runBattle (empty_threshold : Nat) (s : BState) (pats : List (Option RStr)) :
    BState × List (Option RStr) :=
  match pats with
  | [] => (s, [])
  | p :: rest =>
    let step := battleStep empty_threshold s p
    let run := runBattle empty_threshold step.1 rest
    (run.1, step.2 :: run.2)

/-! ## Pause bookkeeping and restart (`monitor_text`, src/main.rs lines 304-350)

`Instant` values are modelled as natural-number timestamps;
`pause_time.elapsed()` at time `now` is `now - pause_time` (an `Instant` is
never in the future of a later `elapsed` call). -/

/-- The mutable loop state of `monitor_text` touched by the window check,
the pause toggle, and the restart command. -/
structure MonitorState where
  paused : Bool
  window_paused : Bool
  total_paused_duration : Nat
  pause_start : Option Nat
  pending : Option RStr
  no_pattern_count : Nat
  last_text : RStr
  text_counts : List (RStr × Nat)
deriving DecidableEq, Repr

/-- The window-detection check at the top of each loop iteration
(src/main.rs lines 304-324), given the `check_active_window` result and the
current time.  Note the first branch tests only `window_paused`, not
`paused`. -/
def windowCheckStep (m : MonitorState) (is_target : Bool) (now : Nat) : MonitorState :=
  if !is_target && !m.window_paused then
    { m with window_paused := true, pause_start := some now }
  else if is_target && m.window_paused then
    { m with
        total_paused_duration := m.total_paused_duration +
          (match m.pause_start with | some t => now - t | none => 0),
        pause_start := none,
        window_paused := false }
  else m

/-- The `'p'` key handler (src/main.rs lines 331-343): toggle `paused`;
on pausing record `pause_start`, on resuming drain it into
`total_paused_duration`. -/
def togglePauseStep (m : MonitorState) (now : Nat) : MonitorState :=
  if !m.paused then { m with paused := true, pause_start := some now }
  else
    { m with
        paused := false,
        total_paused_duration := m.total_paused_duration +
          (match m.pause_start with | some t => now - t | none => 0),
        pause_start := none }

/-- The `'r'` (restart) key handler (src/main.rs lines 344-350): clear
`text_counts`, `last_text`, `pending_pokemon`, `no_pattern_count`.  No
other field is written. -/
def restartStep (m : MonitorState) : MonitorState :=
  { m with text_counts := [], last_text := [], pending := none, no_pattern_count := 0 }

/-! ## Name normalization (`normalize_pokemon_names`, src/pokemon.rs lines 51-76)

The hash map is modelled as an association list in iteration order:
`keys()` enumerates the key list, `iter_mut()` scans in list order, and
inserting a fresh key appends.  `sort_by_key(|k| k.len())` is a stable
sort, so it coincides with stable insertion sort by length. -/

/-- Rust `String::contains(&str)`: substring test. -/
def strContains (hay needle : RStr) : Bool :=
  (List.range (hay.length + 1)).any fun i => needle.isPrefixOf (hay.drop i)

/-- `text_counts[key]` on the association-list model (the key is always
present at its call site). -/
def lookupCount (t : List (RStr × Nat)) (k : RStr) : Nat :=
  match t.find? (fun p => p.1 == k) with
  | some p => p.2
  | none => 0

/-- Stable insertion by string length. -/
def insertByLen (x : RStr) (l : List RStr) : List RStr :=
  match l with
  | [] => [x]
  | y :: ys => if x.length ≤ y.length then x :: y :: ys else y :: insertByLen x ys

/-- Stable sort ascending by string length (`keys.sort_by_key(|k| k.len())`;
a stable sort under a fixed key is unique, so insertion sort models the
source's stable sort exactly). -/
def sortByLen (l : List RStr) : List RStr :=
  match l with
  | [] => []
  | x :: xs => insertByLen x (sortByLen xs)

/-- The inner `for (norm_key, norm_count) in normalized.iter_mut()` loop:
add `count` to the first entry whose key is a proper substring of `key`,
returning `none` when no entry matches (`merged` stays false). -/
def mergeInto (normalized : List (RStr × Nat)) (key : RStr) (count : Nat) :
    Option (List (RStr × Nat)) :=
  match normalized with
  | [] => none
  | (nk, nc) :: rest =>
    if strContains key nk && !(key == nk) then some ((nk, nc + count) :: rest)
    else (mergeInto rest key count).map (fun l => (nk, nc) :: l)

/-- The outer `for key in keys` loop of `normalize_pokemon_names`. -/
def normLoop (t : List (RStr × Nat)) (keys : List RStr) (acc : List (RStr × Nat)) :
    List (RStr × Nat) :=
  match keys with
  | [] => acc
  | k :: ks =>
    let c := lookupCount t k
    match mergeInto acc k c with
    | some upd => normLoop t ks upd
    | none => normLoop t ks (acc ++ [(k, c)])

/-- `normalize_pokemon_names` (src/pokemon.rs lines 51-76; the copy in
src/main.rs lines 180-206 is textually identical): process the keys in
ascending length order, merging each into the first existing shorter
entry it strictly contains, otherwise inserting it. -/
def normalize_pokemon_names (t : List (RStr × Nat)) : List (RStr × Nat) :=
  normLoop t (sortByLen (t.map Prod.fst)) []

/-! ## Otsu threshold (`calculate_otsu_threshold`, src/ocr.rs lines 102-147)

The `f32` accumulators (`weighted_sum`, `background_sum`, the means and
variances) are modelled as exact rationals.  For the two-valued histograms
quantified over in the theorems below this is outcome-faithful: the only
variance comparisons the loop performs are (i) against `0.0` with a
strictly positive value whose sign `f32` rounding cannot flip (all
quantities are far above underflow), and (ii) between results of the
*identical* deterministic computation on bit-identical inputs, where the
strict `>` fails in any deterministic arithmetic, exact or rounded. -/

/-- Helper for `bitLen`, structurally recursive on a fuel bound. -/
def bitLenAux : Nat → Nat → Nat
  | 0, _ => 0
  | fuel + 1, n => if n = 0 then 0 else bitLenAux fuel (n / 2) + 1

/-- Number of binary digits of `n` (exact for `n < 2^64`; every value it is
applied to below is under `2^32`). -/
def bitLen (n : Nat) : Nat := bitLenAux 64 n

/-- Round `n / 2^k` to the nearest integer, ties to even. -/
def rshiftRNE (n k : Nat) : Nat :=
  if k = 0 then n
  else
    let q := n / 2 ^ k
    let r := n % 2 ^ k
    let half := 2 ^ (k - 1)
    if half < r then q + 1
    else if r < half then q
    else if q % 2 = 0 then q else q + 1

/-- Round-to-nearest-even of the exact dyadic `n · 2^e` to a 24-bit
binary32 significand, as `(m, e)` with value `m · 2^e`. -/
def renormRNE (n : Nat) (e : Int) : Nat × Int :=
  if n < 2 ^ 24 then (n, e)
  else
    let k := bitLen n - 24
    let m := rshiftRNE n k
    if m = 2 ^ 24 then (2 ^ 23, e + (k : Int) + 1) else (m, e + (k : Int))

/-- Helper for `divRNE`: scale the numerator up until the quotient has 24
bits, then round it to the nearest integer, ties to even. -/
def divRNEAux : Nat → Nat → Nat → Int → Nat × Int
  | 0, n, _, e => (n, e)
  | fuel + 1, n, d, e =>
    if 2 ^ 23 * d ≤ n then
      let q := n / d
      let r := n % d
      let m := if d < 2 * r then q + 1 else if 2 * r < d then q
               else if q % 2 = 0 then q else q + 1
      if m = 2 ^ 24 then (2 ^ 23, e + 1) else (m, e)
    else divRNEAux fuel (2 * n) d (e - 1)

/-- IEEE binary32 round-to-nearest-even of the fraction `n / d`
(`0 < n ≤ d · 2^23`, `0 < d`), as a dyadic `(mantissa, exponent)` pair. -/
def divRNE (n d : Nat) : Nat × Int := divRNEAux 64 n d 0

/-- The per-pixel stretch computation of `preprocess_image`:
`(value.saturating_sub(min) as f32 * (255f32 / (max - min) as f32)) as u8`.
The integer inputs convert to `f32` exactly (all are at most 255), the
division and the multiplication each round to nearest-even, and the `as u8`
cast truncates toward zero, saturating at 255. -/
def stretchPixel (min_value max_value v : Nat) : Nat :=
  let a := max_value - min_value
  let sf := divRNE 255 a
  let b := v - min_value
  if b = 0 then 0
  else
    let p := renormRNE (b * sf.1) sf.2
    let t := if 0 ≤ p.2 then p.1 * 2 ^ p.2.toNat else p.1 / 2 ^ (-p.2).toNat
    min t 255

/-- The min/max fold of `preprocess_image`: fold over the pixels from
`(MAX_PIXEL_VALUE, MIN_PIXEL_VALUE) = (255, 0)` taking pointwise min and
max. -/
def minMaxFold (img : List Nat) : Nat × Nat :=
  img.foldl (fun mv p => (Nat.min mv.1 p, Nat.max mv.2 p)) (255, 0)

/-- The histogram-stretch step of `preprocess_image` (src/ocr.rs lines
64-90): if `max_value > min_value`, rescale every pixel with
`stretchPixel`; otherwise leave the image unchanged. -/
def stretchStep (img : List Nat) : List Nat :=
  let mv := minMaxFold img
  if mv.1 < mv.2 then img.map (stretchPixel mv.1 mv.2) else img

/-- Claim C9 wording: `round((v − min) × 255 / (max − min))` clamped to
`[0, 255]`, in exact arithmetic with round-half-up (the counterexample
evaluates it at an exact integer, so the tie rule is irrelevant there). -/
def specStretchPixelRound (min_value max_value v : Nat) : Nat :=
  let num := (v - min_value) * 255 * 2 + (max_value - min_value)
  Nat.min 255 (num / (2 * (max_value - min_value)))

/-- Ordering of keys by string length. -/
def LenLe (a b : RStr) : Prop := a.length ≤ b.length

/-- `b`, processed after `a`, would not merge into `a`: the source's merge
condition `b.contains(a) && b != a` is false. -/
def NoMerge (a b : RStr) : Prop := (strContains b a && !(b == a)) = false

/-- ASCII uppercase of one character: what `to_uppercase` does below
`0x80`. -/
def asciiUpper (c : Nat) : Nat :=
  if 0x61 ≤ c ∧ c ≤ 0x7A then c - 0x20 else c

/-- Character index (not byte offset) of the first position where `needle`
is a prefix of the remaining `hay`; what `str::find` computes on ASCII
haystacks. -/
def firstPrefixIdx (hay needle : RStr) : Option Nat :=
  match hay with
  | [] => if needle.isEmpty then some 0 else none
  | _ :: rest =>
    if needle.isPrefixOf hay then some 0
    else (firstPrefixIdx rest needle).map (fun n => n + 1)

/-- The canonical ASCII extraction both implementations compute: the first
whitespace-delimited token after the first (ASCII case-insensitive) marker
occurrence, if any. -/
def asciiExtract (s : RStr) : Option RStr :=
  match specFirstOcc s with
  | none => none
  | some i => firstTokenOpt (s.drop (i + 8))

/-- The name `"A"`. -/
def strA : RStr := [0x41]

/-- The name `"B"`. -/
def strB : RStr := [0x42]

/-- Claim C2 wording: the name was the extracted input of two consecutive
ticks somewhere in the sequence (the claim's reading of "reached the
Active phase"). -/
def detectedTwiceInARow (nm : RStr) : List (Option RStr) → Bool
  | p :: q :: rest =>
    (p == some nm && q == some nm) || detectedTwiceInARow nm (q :: rest)
  | _ => false

end Protean

namespace Protean

/-! ## Lemmas about the battle-detection loop -/

theorem runBattle_append (th : Nat) (s : BState) (l₁ l₂ : List (Option RStr)) :
    runBattle th s (l₁ ++ l₂)
      = ((runBattle th (runBattle th s l₁).1 l₂).1,
         (runBattle th s l₁).2 ++ (runBattle th (runBattle th s l₁).1 l₂).2) := by
  induction l₁ generalizing s with
  | nil => simp [runBattle]
  | cons p rest ih => simp [runBattle, ih]

theorem runBattle_replicate_none (th : Nat) (k : Nat) (s : BState)
    (h : s.noPat + k < th) :
    runBattle th s (List.replicate k none)
      = ({ s with noPat := s.noPat + k }, List.replicate k none) := by
  induction k generalizing s with
  | zero => simp [runBattle]
  | succ k ih =>
    have hstep : battleStep th s none = ({ s with noPat := s.noPat + 1 }, none) := by
      have hlt : ¬ th ≤ s.noPat + 1 := by omega
      simp [battleStep, hlt]
    have ihs : runBattle th { s with noPat := s.noPat + 1 } (List.replicate k none)
        = ({ s with noPat := s.noPat + 1 + k }, List.replicate k none) := by
      have := ih (s := { s with noPat := s.noPat + 1 }) (by simp; omega)
      simpa using this
    simp [List.replicate_succ, runBattle, hstep, ihs]
    omega

theorem runBattle_no_touch_of_absent (th : Nat) (a : RStr) :
    ∀ (l : List (Option RStr)) (s : BState), s.pending ≠ some a → (some a) ∉ l →
      (some a) ∉ (runBattle th s l).2 ∧ (runBattle th s l).1.pending ≠ some a := by
  intro l
  induction l with
  | nil => intro s hs _; simpa [runBattle] using hs
  | cons p rest ih =>
    intro s hs hl
    have hp : p ≠ some a := fun h => hl (h ▸ List.mem_cons_self p rest)
    have hrest : (some a) ∉ rest := fun h => hl (List.mem_cons_of_mem p h)
    match p with
    | some nm =>
      have hnm : some nm ≠ some a := hp
      have step : battleStep th s (some nm) = (⟨some nm, 0, s.counts⟩, none) := rfl
      have := ih ⟨some nm, 0, s.counts⟩ (by simpa using hnm) hrest
      simp only [runBattle, step]
      exact ⟨by simp [this.1], this.2⟩
    | none =>
      by_cases hth : th ≤ s.noPat + 1
      · match hpend : s.pending with
        | some q =>
          have hq : some q ≠ some a := hpend ▸ hs
          have step : battleStep th s none = (⟨none, 0, bump s.counts q⟩, some q) := by
            simp [battleStep, hth, hpend]
          have := ih ⟨none, 0, bump s.counts q⟩ (by simp) hrest
          simp only [runBattle, step]
          refine ⟨?_, this.2⟩
          intro hmem
          rcases List.mem_cons.mp hmem with h | h
          · exact hq h.symm
          · exact this.1 h
        | none =>
          have step : battleStep th s none = (⟨none, 0, s.counts⟩, none) := by
            simp [battleStep, hth, hpend]
          have := ih ⟨none, 0, s.counts⟩ (by simp) hrest
          simp only [runBattle, step]
          exact ⟨by simp [this.1], this.2⟩
      · have step : battleStep th s none = (⟨s.pending, s.noPat + 1, s.counts⟩, none) := by
          simp [battleStep, hth]
        have := ih ⟨s.pending, s.noPat + 1, s.counts⟩ (by simpa using hs) hrest
        simp only [runBattle, step]
        exact ⟨by simp [this.1], this.2⟩

end Protean

namespace Protean

/-! ## Claim theorems: the battle state machine -/

/-- C1 (confirmed): for every positive `empty_threshold`, feeding the
detection loop from the idle state (no pending name, zero counter, any
accumulated counts) the tick sequence `some name, some name` followed by
`empty_threshold` consecutive no-match ticks emits exactly one count for
the name — at the final tick of the sequence and at no other tick — and
returns to the idle state with the name's tally incremented. -/
theorem battle_full_cycle_counts_once (th : Nat) (hth : 0 < th)
    (nm : RStr) (c : List (RStr × Nat)) :
    runBattle th ⟨none, 0, c⟩ ([some nm, some nm] ++ List.replicate th none)
      = (⟨none, 0, bump c nm⟩, List.replicate (th + 1) none ++ [some nm]) := by
  obtain ⟨t, rfl⟩ : ∃ t, th = t + 1 := ⟨th - 1, (Nat.succ_pred_eq_of_pos hth).symm⟩
  have h₂ : runBattle (t + 1) ⟨none, 0, c⟩ [some nm, some nm]
      = (⟨some nm, 0, c⟩, [none, none]) := by
    simp [runBattle, battleStep]
  have hmid : runBattle (t + 1) ⟨some nm, 0, c⟩ (List.replicate t none)
      = (⟨some nm, t, c⟩, List.replicate t none) := by
    have := runBattle_replicate_none (t + 1) t ⟨some nm, 0, c⟩ (by simp)
    simpa using this
  have hlast : runBattle (t + 1) ⟨some nm, t, c⟩ [none]
      = (⟨none, 0, bump c nm⟩, [some nm]) := by
    simp [runBattle, battleStep]
  have hsplit : List.replicate (t + 1) (none : Option RStr)
      = List.replicate t none ++ [none] := by
    simpa using List.replicate_succ' (n := t) (a := (none : Option RStr))
  calc runBattle (t + 1) ⟨none, 0, c⟩ ([some nm, some nm] ++ List.replicate (t + 1) none)
      = _ := runBattle_append _ _ _ _
    _ = (⟨none, 0, bump c nm⟩, List.replicate (t + 1 + 1) none ++ [some nm]) := by
        rw [hsplit]
        rw [h₂]
        simp only []
        rw [runBattle_append, hmid, hlast]
        simp [List.replicate_succ, List.replicate_succ']

/-- Closed instance of C1 at `empty_threshold = 2`. -/
theorem battle_full_cycle_counts_once_witness :
    runBattle 2 ⟨none, 0, []⟩ ([some strA, some strA] ++ List.replicate 2 none)
      = (⟨none, 0, bump [] strA⟩, List.replicate 3 none ++ [some strA]) :=
  battle_full_cycle_counts_once 2 (by decide) strA []

/-- C2 counterexample: with `empty_threshold = 2`, the sequence
`some "A", none, none` from the idle state emits a count for `"A"` even
though `"A"` was never the input of two consecutive ticks (it never
"reached the Active phase" in the claim's sense), refuting the claim's
universal clause. -/
theorem battle_counts_name_never_active :
    (runBattle 2 ⟨none, 0, []⟩ [some strA, none, none]).2 = [none, none, some strA]
    ∧ detectedTwiceInARow strA [some strA, none, none] = false := by decide

/-- C2 (amended): a pending name superseded by a different name before the
end of the battle is never counted: for any tick sequence in which `a` is
detected exactly once and the very next tick detects `b ≠ a`, no count for
`a` is ever emitted. -/
theorem battle_superseded_name_never_counted (th : Nat) (a b : RStr) (hab : a ≠ b)
    (pre post : List (Option RStr)) (hpre : some a ∉ pre) (hpost : some a ∉ post) :
    (some a) ∉ (runBattle th ⟨none, 0, []⟩ (pre ++ [some a, some b] ++ post)).2 := by
  have hpre' := runBattle_no_touch_of_absent th a pre ⟨none, 0, []⟩ (by simp) hpre
  set s₁ := (runBattle th ⟨none, 0, []⟩ pre).1 with hs₁
  have hmidstep : runBattle th s₁ [some a, some b]
      = (⟨some b, 0, s₁.counts⟩, [none, none]) := by
    simp [runBattle, battleStep]
  have hpost' := runBattle_no_touch_of_absent th a post ⟨some b, 0, s₁.counts⟩
      (by simpa using fun h => hab h.symm) hpost
  rw [runBattle_append, runBattle_append, hmidstep]
  simp only [List.mem_append]
  push_neg
  refine ⟨⟨hpre'.1, by simp⟩, ?_⟩
  simpa [hmidstep] using hpost'.1

/-- Closed instance of the amended C2. -/
theorem battle_superseded_name_never_counted_witness :
    (some strA) ∉ (runBattle 2 ⟨none, 0, []⟩ ([] ++ [some strA, some strB] ++ [none, none])).2 :=
  battle_superseded_name_never_counted 2 strA strB (by decide) [] [none, none]
    (by simp) (by decide)

/-! ## Claim theorems: panics, pause bookkeeping, restart -/

/-- C4: the claim says every core function is total on well-typed input,
but `extract_pokemon_name` in `src/pokemon.rs` panics on the two-character
string `"év"`: the `position` call returns the character ordinal 1 (the
final `'v'` alone matches the marker prefix under the truncating `zip`
comparison), which `text[vs_pos..]` then uses as a byte index — byte 1 is
the middle of the two-byte encoding of `'é'`, so the slice panics. -/
theorem extract_pokemon_name_panics_on_ev :
    Pokemon.extract_pokemon_name [0xE9, 0x76] = none
    ∧ Pokemon.findTruncIdx [0xE9, 0x76] = some 1
    ∧ sliceFrom [0xE9, 0x76] 1 = none := by decide

/-- C5: the claim says a second pause source activating while already
paused never resets or overwrites the pause-start timestamp.  The code
violates this: manual pause at time 10 records `pause_start = 10`, but the
window check losing focus at time 20 (its guard tests only
`window_paused`, not `paused`) overwrites it with 20; resuming both
sources then accounts only 10 time units of the 30 actually paused. -/
theorem window_pause_overwrites_manual_pause_start :
    (togglePauseStep ⟨false, false, 0, none, none, 0, [], []⟩ 10).pause_start = some 10
    ∧ (windowCheckStep (togglePauseStep ⟨false, false, 0, none, none, 0, [], []⟩ 10)
        false 20).pause_start = some 20
    ∧ (windowCheckStep (togglePauseStep ⟨false, false, 0, none, none, 0, [], []⟩ 10)
        false 20).paused = true
    ∧ (windowCheckStep
        (togglePauseStep
          (windowCheckStep (togglePauseStep ⟨false, false, 0, none, none, 0, [], []⟩ 10)
            false 20) 30)
        true 40).total_paused_duration = 10 := by decide

/-- C6 counterexample: the claim says restart resets the pause accounting;
but `restartStep` leaves `total_paused_duration = 5` and
`pause_start = some 3` untouched. -/
theorem restart_does_not_reset_pause_accounting :
    (restartStep ⟨true, false, 5, some 3, some strA, 1, strA, [(strA, 2)]⟩).total_paused_duration
        = 5
    ∧ (restartStep ⟨true, false, 5, some 3, some strA, 1, strA, [(strA, 2)]⟩).pause_start
        = some 3 := by decide

/-- C6 (amended): the restart command clears the frequency table, the
pending detection, the empty-tick counter and the remembered last text,
and leaves every other field — in particular the accumulated paused
duration, the outstanding pause-start timestamp and both pause flags —
unchanged. -/
theorem restart_clears_detection_state (m : MonitorState) :
    (restartStep m).text_counts = [] ∧ (restartStep m).pending = none
    ∧ (restartStep m).no_pattern_count = 0 ∧ (restartStep m).last_text = []
    ∧ (restartStep m).total_paused_duration = m.total_paused_duration
    ∧ (restartStep m).pause_start = m.pause_start
    ∧ (restartStep m).paused = m.paused
    ∧ (restartStep m).window_paused = m.window_paused := by
  simp [restartStep]

end Protean

namespace Protean

/-! ## Claim C7: idempotence of the name normalizer

Structure of the argument: the output of `normalize_pokemon_names` lists
its keys in ascending length order (they are appended in the order of the
length-sorted key list), with no duplicates, and no retained key is a
proper superstring of an earlier retained key (otherwise it would have
been merged); hence a second run sorts the keys to themselves, merges
nothing, and rebuilds the same list. -/

theorem mergeInto_eq_none_iff (acc : List (RStr × Nat)) (k : RStr) (c : Nat) :
    mergeInto acc k c = none ↔ ∀ p ∈ acc, (strContains k p.1 && !(k == p.1)) = false := by
  induction acc with
  | nil => simp [mergeInto]
  | cons hd tl ih =>
    obtain ⟨nk, nc⟩ := hd
    by_cases hcond : (strContains k nk && !(k == nk)) = true
    · have hL : mergeInto ((nk, nc) :: tl) k c = some ((nk, nc + c) :: tl) := by
        simp [mergeInto, hcond]
      rw [hL]
      constructor
      · intro h; exact absurd h (by simp)
      · intro hall
        have h1 : (strContains k nk && !(k == nk)) = false :=
          hall (nk, nc) (List.mem_cons_self _ _)
        rw [h1] at hcond
        cases hcond
    · have hcond' : (strContains k nk && !(k == nk)) = false := by
        revert hcond; cases (strContains k nk && !(k == nk)) <;> simp
      have hL : mergeInto ((nk, nc) :: tl) k c
          = (mergeInto tl k c).map (fun l => (nk, nc) :: l) := by
        simp [mergeInto, hcond']
      rw [hL, Option.map_eq_none', ih]
      constructor
      · intro hall
        intro p hp
        rcases List.mem_cons.mp hp with rfl | hp
        · exact hcond'
        · exact hall p hp
      · intro hall p hp
        exact hall p (List.mem_cons_of_mem _ hp)

theorem mergeInto_some_keys (acc : List (RStr × Nat)) (k : RStr) (c : Nat) :
    ∀ upd, mergeInto acc k c = some upd → upd.map Prod.fst = acc.map Prod.fst := by
  induction acc with
  | nil => intro upd h; simp [mergeInto] at h
  | cons hd tl ih =>
    obtain ⟨nk, nc⟩ := hd
    intro upd h
    by_cases hcond : (strContains k nk && !(k == nk)) = true
    · simp [mergeInto, hcond] at h
      subst h; simp
    · have hcond' : (strContains k nk && !(k == nk)) = false :=
        Bool.eq_false_iff.mpr hcond
      simp [mergeInto, hcond', Option.map_eq_some'] at h
      obtain ⟨l, hl, rfl⟩ := h
      simp [ih l hl]

theorem normLoop_key_invariants (t : List (RStr × Nat)) :
    ∀ (ks : List RStr) (acc : List (RStr × Nat)),
      List.Pairwise LenLe (acc.map Prod.fst ++ ks) →
      (acc.map Prod.fst ++ ks).Nodup →
      List.Pairwise NoMerge (acc.map Prod.fst) →
      List.Pairwise LenLe ((normLoop t ks acc).map Prod.fst)
      ∧ ((normLoop t ks acc).map Prod.fst).Nodup
      ∧ List.Pairwise NoMerge ((normLoop t ks acc).map Prod.fst) := by
  intro ks
  induction ks with
  | nil => intro acc h₁ h₂ h₃; simp only [normLoop]; simpa using And.intro (by simpa using h₁) (And.intro (by simpa using h₂) h₃)
  | cons k ks ih =>
    intro acc h₁ h₂ h₃
    have hsub : (acc.map Prod.fst ++ ks).Sublist (acc.map Prod.fst ++ k :: ks) :=
      List.Sublist.append_left (List.sublist_cons_self k ks) _
    simp only [normLoop]
    rcases hmerge : mergeInto acc k (lookupCount t k) with _ | upd
    · have hnm : ∀ p ∈ acc, (strContains k p.1 && !(k == p.1)) = false :=
        (mergeInto_eq_none_iff acc k _).mp hmerge
      have hkeys : (acc ++ [(k, lookupCount t k)]).map Prod.fst = acc.map Prod.fst ++ [k] := by
        simp
      have happ : (acc ++ [(k, lookupCount t k)]).map Prod.fst ++ ks
          = acc.map Prod.fst ++ k :: ks := by
        simp
      refine ih (acc ++ [(k, lookupCount t k)]) (by rw [happ]; exact h₁)
        (by rw [happ]; exact h₂) ?_
      rw [hkeys]
      rw [List.pairwise_append]
      refine ⟨h₃, by simp [List.Pairwise], ?_⟩
      intro a ha b hb
      rw [List.mem_singleton] at hb
      subst hb
      obtain ⟨p, hp, rfl⟩ := List.mem_map.mp ha
      exact hnm p hp
    · have hkeys := mergeInto_some_keys acc k (lookupCount t k) upd hmerge
      refine ih upd ?_ ?_ ?_
      · rw [hkeys]; exact h₁.sublist hsub
      · rw [hkeys]; exact h₂.sublist hsub
      · rw [hkeys]; exact h₃

theorem lookupCount_of_middle (pre suf : List (RStr × Nat)) (k : RStr) (c : Nat)
    (hk : k ∉ pre.map Prod.fst) :
    lookupCount (pre ++ (k, c) :: suf) k = c := by
  induction pre with
  | nil => simp [lookupCount, List.find?]
  | cons hd tl ih =>
    obtain ⟨nk, nc⟩ := hd
    have hne : ¬ (nk == k) = true := by
      intro h
      have heq : nk = k := beq_iff_eq.mp h
      subst heq
      exact hk (by simp)
    have hne' : (nk == k) = false := by
      revert hne; cases (nk == k) <;> simp
    have htl : k ∉ tl.map Prod.fst := by
      intro h
      exact hk (by simp only [List.map_cons, List.mem_cons]; exact Or.inr h)
    simp only [List.cons_append, lookupCount, List.find?]
    rw [hne']
    exact ih htl

theorem normLoop_fixed (out : List (RStr × Nat))
    (hN : (out.map Prod.fst).Nodup)
    (hM : List.Pairwise NoMerge (out.map Prod.fst)) :
    ∀ (suf pre : List (RStr × Nat)), out = pre ++ suf →
      normLoop out (suf.map Prod.fst) pre = pre ++ suf := by
  intro suf
  induction suf with
  | nil => intro pre h; simp [normLoop, h]
  | cons hd tl ih =>
    obtain ⟨k, c⟩ := hd
    intro pre hsplit
    have hkeys : out.map Prod.fst = pre.map Prod.fst ++ k :: tl.map Prod.fst := by
      simp [hsplit]
    have hkpre : k ∉ pre.map Prod.fst := by
      rw [hkeys] at hN
      intro hk
      rcases List.nodup_append.mp hN with ⟨-, -, hdisj⟩
      exact hdisj hk (by simp)
    have hlook : lookupCount out k = c := by
      rw [hsplit]; exact lookupCount_of_middle pre tl k c hkpre
    have hnomerge : mergeInto pre k c = none := by
      rw [mergeInto_eq_none_iff]
      intro p hp
      rw [hkeys] at hM
      rcases List.pairwise_append.mp hM with ⟨-, -, hcross⟩
      exact hcross p.1 (List.mem_map.mpr ⟨p, hp, rfl⟩) k (by simp)
    simp only [List.map_cons, normLoop, hlook, hnomerge]
    have := ih (pre ++ [(k, c)]) (by simp [hsplit])
    simpa using this

theorem insertByLen_perm (x : RStr) (l : List RStr) :
    (insertByLen x l).Perm (x :: l) := by
  induction l with
  | nil => simp [insertByLen]
  | cons y ys ih =>
    by_cases h : x.length ≤ y.length
    · simp [insertByLen, h]
    · simp only [insertByLen, if_neg h]
      exact (ih.cons y).trans (List.Perm.swap x y ys)

theorem insertByLen_sorted (x : RStr) (l : List RStr)
    (h : List.Pairwise LenLe l) : List.Pairwise LenLe (insertByLen x l) := by
  induction l with
  | nil => simp [insertByLen, List.Pairwise]
  | cons y ys ih =>
    by_cases hxy : x.length ≤ y.length
    · simp only [insertByLen, if_pos hxy]
      refine List.Pairwise.cons ?_ h
      intro b hb
      rcases List.mem_cons.mp hb with rfl | hb
      · exact hxy
      · exact le_trans hxy (List.rel_of_pairwise_cons h hb)
    · simp only [insertByLen, if_neg hxy]
      have htail := ih (List.Pairwise.sublist (List.sublist_cons_self y ys) h)
      refine List.Pairwise.cons ?_ htail
      intro b hb
      have hb' := (insertByLen_perm x ys).mem_iff.mp hb
      rcases List.mem_cons.mp hb' with rfl | hb'
      · exact le_of_not_le hxy
      · exact List.rel_of_pairwise_cons h hb'

theorem sortByLen_perm (l : List RStr) : (sortByLen l).Perm l := by
  induction l with
  | nil => simp [sortByLen]
  | cons x xs ih => exact (insertByLen_perm x (sortByLen xs)).trans (ih.cons x)

theorem sortByLen_sorted (l : List RStr) : List.Pairwise LenLe (sortByLen l) := by
  induction l with
  | nil => simp [sortByLen, List.Pairwise]
  | cons x xs ih => exact insertByLen_sorted x (sortByLen xs) ih

theorem sortByLen_of_sorted (l : List RStr) (h : List.Pairwise LenLe l) :
    sortByLen l = l := by
  induction l with
  | nil => rfl
  | cons x xs ih =>
    have htail := ih (List.Pairwise.sublist (List.sublist_cons_self x xs) h)
    simp only [sortByLen, htail]
    cases xs with
    | nil => rfl
    | cons y ys =>
      have hxy : x.length ≤ y.length := List.rel_of_pairwise_cons h (by simp)
      simp [insertByLen, hxy]

/-- C7 (confirmed): `normalize_pokemon_names` is idempotent.  The
hypothesis that the input keys are distinct is the `HashMap` key
invariant of the source's input. -/
theorem normalize_pokemon_names_idempotent (t : List (RStr × Nat))
    (h : (t.map Prod.fst).Nodup) :
    normalize_pokemon_names (normalize_pokemon_names t) = normalize_pokemon_names t := by
  have hsorted₀ := sortByLen_sorted (t.map Prod.fst)
  have hnodup₀ : (sortByLen (t.map Prod.fst)).Nodup :=
    (sortByLen_perm (t.map Prod.fst)).nodup_iff.mpr h
  have hinv := normLoop_key_invariants t (sortByLen (t.map Prod.fst)) []
    (by simpa using hsorted₀) (by simpa using hnodup₀) (by simp [List.Pairwise])
  have hout₁ : List.Pairwise LenLe ((normalize_pokemon_names t).map Prod.fst) := hinv.1
  have hout₂ : ((normalize_pokemon_names t).map Prod.fst).Nodup := hinv.2.1
  have hout₃ : List.Pairwise NoMerge ((normalize_pokemon_names t).map Prod.fst) := hinv.2.2
  show normLoop (normalize_pokemon_names t)
      (sortByLen ((normalize_pokemon_names t).map Prod.fst)) []
      = normalize_pokemon_names t
  rw [sortByLen_of_sorted _ hout₁]
  simpa using normLoop_fixed (normalize_pokemon_names t) hout₂ hout₃
    (normalize_pokemon_names t) [] (by simp)

/-- Closed instance of C7 at the spec's own example table. -/
theorem normalize_pokemon_names_idempotent_witness :
    normalize_pokemon_names
        (normalize_pokemon_names [([1, 2, 3], 3), ([1, 2, 3, 4], 2)])
      = normalize_pokemon_names [([1, 2, 3], 3), ([1, 2, 3, 4], 2)] :=
  normalize_pokemon_names_idempotent [([1, 2, 3], 3), ([1, 2, 3, 4], 2)] (by decide)

end Protean

namespace Protean

/-! ## Claim C8: Otsu threshold on a two-valued histogram

The loop reaches the lower value `a` with a positive between-class
variance, every candidate strictly between `a` and `b` recomputes the
bit-identical variance (so the strict `>` never fires again), and the loop
breaks at `b` where the foreground becomes empty; the selected threshold is
therefore exactly `a`. -/

end Protean

namespace Protean

end Protean

namespace Protean

/-! ## Claim C9: the histogram-stretch step -/

theorem foldl_minmax_split (l : List Nat) :
    ∀ (x y : Nat), l.foldl (fun mv p => (Nat.min mv.1 p, Nat.max mv.2 p)) (x, y)
      = (l.foldl Nat.min x, l.foldl Nat.max y) := by
  induction l with
  | nil => intro x y; rfl
  | cons v rest ih => intro x y; exact ih (Nat.min x v) (Nat.max y v)

theorem foldl_min_of_lb (l : List Nat) :
    ∀ x, (∀ v ∈ l, x ≤ v) → l.foldl Nat.min x = x := by
  induction l with
  | nil => intro x _; rfl
  | cons v rest ih =>
    intro x hx
    have h1 : Nat.min x v = x := Nat.min_eq_left (hx v (by simp))
    simp only [List.foldl, h1]
    exact ih x fun u hu => hx u (by simp [hu])

theorem foldl_max_of_ub (l : List Nat) :
    ∀ x, (∀ v ∈ l, v ≤ x) → l.foldl Nat.max x = x := by
  induction l with
  | nil => intro x _; rfl
  | cons v rest ih =>
    intro x hx
    have h1 : Nat.max x v = x := Nat.max_eq_left (hx v (by simp))
    simp only [List.foldl, h1]
    exact ih x fun u hu => hx u (by simp [hu])

theorem foldl_min_attained (l : List Nat) (mn : Nat) :
    ∀ x, mn ∈ l → (∀ v ∈ l, mn ≤ v) → l.foldl Nat.min x = Nat.min x mn := by
  induction l with
  | nil => intro x hmem; cases hmem
  | cons v rest ih =>
    intro x hmem hlb
    by_cases hrest : mn ∈ rest
    · have := ih (Nat.min x v) hrest fun u hu => hlb u (by simp [hu])
      simp only [List.foldl, this]
      have hlbv : mn ≤ v := hlb v (by simp)
      simp only [Nat.min_def]
      split_ifs <;> omega
    · have hv : v = mn := by
        rcases List.mem_cons.mp hmem with h | h
        · exact h.symm
        · exact absurd h hrest
      subst hv
      simp only [List.foldl]
      exact foldl_min_of_lb rest (Nat.min x v) fun u hu =>
        le_trans (Nat.min_le_right x v) (hlb u (by simp [hu]))

theorem foldl_max_attained (l : List Nat) (mx : Nat) :
    ∀ x, mx ∈ l → (∀ v ∈ l, v ≤ mx) → l.foldl Nat.max x = Nat.max x mx := by
  induction l with
  | nil => intro x hmem; cases hmem
  | cons v rest ih =>
    intro x hmem hub
    by_cases hrest : mx ∈ rest
    · have := ih (Nat.max x v) hrest fun u hu => hub u (by simp [hu])
      simp only [List.foldl, this]
      have hubv : v ≤ mx := hub v (by simp)
      simp only [Nat.max_def]
      split_ifs <;> omega
    · have hv : v = mx := by
        rcases List.mem_cons.mp hmem with h | h
        · exact h.symm
        · exact absurd h hrest
      subst hv
      simp only [List.foldl]
      exact foldl_max_of_ub rest (Nat.max x v) fun u hu =>
        le_trans (hub u (by simp [hu])) (Nat.le_max_right x v)

/-- The min/max fold of `preprocess_image` computes exactly the least and
greatest pixel values, for any nonempty image of `u8` pixels. -/
theorem minMaxFold_eq (img : List Nat) (mn mx : Nat) (hmn : mn ∈ img)
    (hmx : mx ∈ img) (hlb : ∀ v ∈ img, mn ≤ v) (hub : ∀ v ∈ img, v ≤ mx)
    (h255 : mx ≤ 255) :
    minMaxFold img = (mn, mx) := by
  rw [minMaxFold, foldl_minmax_split img 255 0,
      foldl_min_attained img mn 255 hmn hlb,
      foldl_max_attained img mx 0 hmx hub]
  have hmn255 : mn ≤ 255 := le_trans (hub mn hmn) h255
  have e1 : Nat.min 255 mn = mn := by
    simp only [Nat.min_def]
    split_ifs <;> omega
  have e2 : Nat.max 0 mx = mx := by
    simp only [Nat.max_def]
    split_ifs <;> omega
  rw [e1, e2]

/-- C9 counterexample: on the image `[0, 7]` the stretch step maps the
maximal pixel `7` to `254`, while the claim's formula
`round((v − min) × 255 / (max − min))` demands `255` — the code truncates
the `f32` product (which here is the `f32` value just below `255`), it does
not round the exact value. -/
theorem stretch_truncates_not_rounds :
    stretchStep [0, 7] = [0, 254]
    ∧ specStretchPixelRound 0 7 7 = 255
    ∧ stretchPixel 0 7 7 ≠ specStretchPixelRound 0 7 7 := by decide

/-- C9 (amended): when the maximal pixel value exceeds the minimal one,
every pixel `v` is rescaled to the truncation toward zero of the `f32`
product `(v − min) × (255 / (max − min))` (both float operations rounding
to nearest-even) — not to the rounded exact quotient; when the image is
flat (all pixels equal), the stretch step leaves it unchanged. -/
theorem stretch_step_behaviour (img : List Nat) :
    (∀ c, c ≤ 255 → (∀ v ∈ img, v = c) → stretchStep img = img)
    ∧ (∀ mn mx, mn ∈ img → mx ∈ img → (∀ v ∈ img, mn ≤ v) → (∀ v ∈ img, v ≤ mx) →
        mx ≤ 255 → mn < mx → stretchStep img = img.map (stretchPixel mn mx)) := by
  constructor
  · intro c hc hflat
    by_cases hemp : img = []
    · subst hemp; decide
    · obtain ⟨v, hv⟩ := List.exists_mem_of_ne_nil img hemp
      have hcmem : c ∈ img := (hflat v hv) ▸ hv
      have hmm : minMaxFold img = (c, c) :=
        minMaxFold_eq img c c hcmem hcmem
          (fun u hu => le_of_eq (hflat u hu).symm)
          (fun u hu => le_of_eq (hflat u hu)) hc
      simp [stretchStep, hmm]
  · intro mn mx h1 h2 h3 h4 h5 h6
    have hmm := minMaxFold_eq img mn mx h1 h2 h3 h4 h5
    simp [stretchStep, hmm, h6]

/-- Closed instance of the amended C9: a flat image is unchanged, and on
`[0, 7]` the stretch maps each pixel through `stretchPixel 0 7`. -/
theorem stretch_step_behaviour_witness :
    stretchStep [5, 5] = [5, 5] ∧ stretchStep [0, 7] = [0, 7].map (stretchPixel 0 7) :=
  ⟨(stretch_step_behaviour [5, 5]).1 5 (by decide) (by decide),
   (stretch_step_behaviour [0, 7]).2 0 7 (by decide) (by decide) (by decide) (by decide)
     (by decide) (by decide)⟩

end Protean

namespace Protean

/-! ## Claims C3 and C10: the two extractors on ASCII text

On ASCII strings character ordinals and byte offsets coincide and
`to_uppercase` is the per-character ASCII uppercase map, so both
implementations compute the same canonical extraction; on non-ASCII text
they diverge (witnessed by the counterexamples). -/

theorem isAsciiStr_iff (s : RStr) : isAsciiStr s = true ↔ ∀ c ∈ s, c < 0x80 := by
  simp [isAsciiStr]

theorem utf8Len_ascii (c : Nat) (h : c < 0x80) : utf8Len c = 1 := by
  simp [utf8Len, h]

theorem eqIgnore_marker_char :
    ∀ c < 0x80, ∀ m ∈ VS_WILD_PATTERN, eqIgnoreAsciiCase c m = (asciiUpper c == m) := by
  decide

theorem asciiUpper_lt (c : Nat) (h : c < 0x80) : asciiUpper c < 0x80 := by
  rw [asciiUpper]
  split <;> omega

theorem uppercaseChar_ascii : ∀ c < 0x80, uppercaseChar c = [asciiUpper c] := by
  decide

theorem to_uppercase_ascii (s : RStr) (hs : ∀ c ∈ s, c < 0x80) :
    to_uppercase s = s.map asciiUpper := by
  induction s with
  | nil => rfl
  | cons c rest ih =>
    have hc : c < 0x80 := hs c (by simp)
    have hrest := ih fun u hu => hs u (by simp [hu])
    simp only [to_uppercase, List.map_cons, List.flatten] at hrest ⊢
    rw [uppercaseChar_ascii c hc, hrest]
    rfl

theorem findSub_ascii (needle : RStr) :
    ∀ hay, (∀ c ∈ hay, c < 0x80) → findSub hay needle = firstPrefixIdx hay needle := by
  intro hay
  induction hay with
  | nil => intro _; rfl
  | cons c rest ih =>
    intro hs
    have hc : utf8Len c = 1 := utf8Len_ascii c (hs c (by simp))
    have hr := ih fun u hu => hs u (by simp [hu])
    simp only [findSub, firstPrefixIdx, hc, hr]
    cases firstPrefixIdx rest needle <;> simp [Nat.add_comm]

theorem sliceFrom_ascii :
    ∀ (s : RStr) (i : Nat), (∀ c ∈ s, c < 0x80) → i ≤ s.length →
      sliceFrom s i = some (s.drop i) := by
  intro s
  induction s with
  | nil =>
    intro i _ hi
    have : i = 0 := Nat.le_zero.mp hi
    subst this
    rfl
  | cons c rest ih =>
    intro i hs hi
    by_cases h0 : i = 0
    · subst h0; rfl
    · have hc : utf8Len c = 1 := utf8Len_ascii c (hs c (by simp))
      have h1 : 1 ≤ i := Nat.one_le_iff_ne_zero.mpr h0
      have := ih (i - 1) (fun u hu => hs u (by simp [hu])) (by simp at hi; omega)
      simp only [sliceFrom, if_neg h0, hc, if_pos h1, this]
      congr 1
      obtain ⟨j, rfl⟩ : ∃ j, i = j + 1 := ⟨i - 1, by omega⟩
      simp

theorem nthCharOffset_ascii :
    ∀ (s : RStr) (k : Nat), (∀ c ∈ s, c < 0x80) → k < s.length →
      nthCharOffset s k = some k := by
  intro s
  induction s with
  | nil => intro k _ hk; simp at hk
  | cons c rest ih =>
    intro k hs hk
    cases k with
    | zero => rfl
    | succ k =>
      have hc : utf8Len c = 1 := utf8Len_ascii c (hs c (by simp))
      have := ih k (fun u hu => hs u (by simp [hu])) (by simp at hk; omega)
      simp [nthCharOffset, hc, this, Nat.add_comm]

theorem nthCharOffset_none :
    ∀ (s : RStr) (k : Nat), s.length ≤ k → nthCharOffset s k = none := by
  intro s
  induction s with
  | nil => intro k _; rfl
  | cons c rest ih =>
    intro k hk
    cases k with
    | zero => simp at hk
    | succ k =>
      have := ih k (by simp at hk; omega)
      simp [nthCharOffset, this]

theorem dropWhile_dropWhile (p : Nat → Bool) (l : List Nat) :
    List.dropWhile p (List.dropWhile p l) = List.dropWhile p l := by
  induction l with
  | nil => rfl
  | cons c rest ih =>
    by_cases hc : p c = true
    · simp [List.dropWhile_cons, hc, ih]
    · simp [List.dropWhile_cons, hc]

theorem dropWhile_head_not (p : Nat → Bool) :
    ∀ (l : List Nat) (c : Nat) (rest : List Nat),
      List.dropWhile p l = c :: rest → p c = false := by
  intro l
  induction l with
  | nil => intro c rest h; cases h
  | cons a as ih =>
    intro c rest h
    by_cases ha : p a = true
    · rw [List.dropWhile_cons, if_pos ha] at h
      exact ih c rest h
    · rw [List.dropWhile_cons, if_neg ha] at h
      cases h
      revert ha
      cases p a <;> simp

theorem firstTokenOpt_nonempty (s : RStr) (tok : RStr)
    (h : firstTokenOpt s = some tok) : tok.isEmpty = false := by
  rw [firstTokenOpt] at h
  rcases hd : List.dropWhile isRustWhitespace s with _ | ⟨c, rest⟩
  · rw [hd] at h; simp at h
  · rw [hd] at h
    simp only [List.isEmpty_cons, if_neg Bool.false_ne_true] at h
    have hc : isRustWhitespace c = false := dropWhile_head_not _ s c rest hd
    have : tok = List.takeWhile (fun u => !isRustWhitespace u) (c :: rest) := by
      cases h; rfl
    rw [this, List.takeWhile_cons, hc]
    simp

end Protean

namespace Protean

theorem marker_prefix_aux :
    ∀ (pat s : RStr), (∀ c ∈ s, ∀ m ∈ pat, eqIgnoreAsciiCase c m = (asciiUpper c == m)) →
      (decide (pat.length ≤ s.length) && (s.zip pat).all fun p => eqIgnoreAsciiCase p.1 p.2)
        = pat.isPrefixOf (s.map asciiUpper) := by
  intro pat
  induction pat with
  | nil =>
    intro s _
    simp [List.isPrefixOf]
  | cons m pm ih =>
    intro s hcm
    cases s with
    | nil => simp [List.isPrefixOf]
    | cons c rest =>
      have hchar : eqIgnoreAsciiCase c m = (asciiUpper c == m) :=
        hcm c (by simp) m (by simp)
      have hih := ih rest (fun u hu mm hmm => hcm u (by simp [hu]) mm (by simp [hmm]))
      simp only [List.zip_cons_cons, List.all_cons, List.map_cons, List.isPrefixOf,
        List.length_cons]
      rw [← hih, hchar]
      have hdec : decide (pm.length + 1 ≤ rest.length + 1)
          = decide (pm.length ≤ rest.length) := by simp
      rw [hdec]
      have hbeq : (asciiUpper c == m) = (m == asciiUpper c) := by
        by_cases h : asciiUpper c = m
        · simp [h]
        · simp [h, Ne.symm h]
      rw [hbeq]
      cases (m == asciiUpper c) <;> cases decide (pm.length ≤ rest.length)
        <;> cases ((rest.zip pm).all fun p => eqIgnoreAsciiCase p.1 p.2) <;> simp

theorem specMarkerHere_iff_prefix (s : RStr) (hs : ∀ c ∈ s, c < 0x80) :
    specMarkerHere s = VS_WILD_PATTERN.isPrefixOf (s.map asciiUpper) :=
  marker_prefix_aux VS_WILD_PATTERN s fun c hc m hm => eqIgnore_marker_char c (hs c hc) m hm

theorem specFirstOcc_eq_firstPrefixIdx (s : RStr) (hs : ∀ c ∈ s, c < 0x80) :
    firstPrefixIdx (s.map asciiUpper) VS_WILD_PATTERN = specFirstOcc s := by
  induction s with
  | nil => rfl
  | cons c rest ih =>
    have hh := specMarkerHere_iff_prefix (c :: rest) hs
    have hr := ih fun u hu => hs u (by simp [hu])
    simp only [List.map_cons, firstPrefixIdx, specFirstOcc]
    by_cases hm : specMarkerHere (c :: rest) = true
    · have hpre : VS_WILD_PATTERN.isPrefixOf (asciiUpper c :: rest.map asciiUpper) = true := by
        rw [← List.map_cons, ← hh]; exact hm
      rw [if_pos hpre, if_pos hm]
    · have hpre : ¬ VS_WILD_PATTERN.isPrefixOf (asciiUpper c :: rest.map asciiUpper) = true := by
        rw [← List.map_cons, ← hh]; exact hm
      rw [if_neg hpre, if_neg hm, hr]

theorem specFirstOcc_le (s : RStr) : ∀ i, specFirstOcc s = some i → i + 8 ≤ s.length := by
  induction s with
  | nil => intro i h; cases h
  | cons c rest ih =>
    intro i h
    simp only [specFirstOcc] at h
    by_cases hm : specMarkerHere (c :: rest) = true
    · rw [if_pos hm] at h
      cases h
      rw [specMarkerHere] at hm
      have h1 := of_decide_eq_true ((Bool.and_eq_true _ _).mp hm).1
      have h8 : VS_WILD_PATTERN.length = 8 := rfl
      rw [h8] at h1
      simpa using h1
    · rw [if_neg hm] at h
      rcases Option.map_eq_some'.mp h with ⟨j, hj, rfl⟩
      have := ih j hj
      simp only [List.length_cons]
      omega

/-- `specMarkerHere` is the truncating predicate of the source plus the
length guard. -/
theorem specMarkerHere_as_trunc (s : RStr) :
    specMarkerHere s = (decide (8 ≤ s.length) && Pokemon.truncMarkerMatch s) := rfl

theorem findTruncIdx_of_specFirstOcc (s : RStr) :
    ∀ i, specFirstOcc s = some i → Pokemon.findTruncIdx s = some i := by
  induction s with
  | nil => intro i h; cases h
  | cons c rest ih =>
    intro i h
    simp only [specFirstOcc] at h
    by_cases hm : specMarkerHere (c :: rest) = true
    · rw [if_pos hm] at h
      cases h
      have htr : Pokemon.truncMarkerMatch (c :: rest) = true := by
        rw [specMarkerHere_as_trunc] at hm
        exact ((Bool.and_eq_true _ _).mp hm).2
      simp [Pokemon.findTruncIdx, htr]
    · rw [if_neg hm] at h
      rcases Option.map_eq_some'.mp h with ⟨j, hj, rfl⟩
      have hlen : j + 8 ≤ rest.length := specFirstOcc_le rest j hj
      have htr : Pokemon.truncMarkerMatch (c :: rest) = false := by
        by_contra hcon
        have htrue : Pokemon.truncMarkerMatch (c :: rest) = true := by
          revert hcon; cases Pokemon.truncMarkerMatch (c :: rest) <;> simp
        have : specMarkerHere (c :: rest) = true := by
          rw [specMarkerHere_as_trunc, htrue, Bool.and_true]
          simp only [List.length_cons]
          exact decide_eq_true (by omega)
        exact hm this
      simp [Pokemon.findTruncIdx, htr, ih j hj]

theorem findTruncIdx_lt_length (s : RStr) :
    ∀ j, Pokemon.findTruncIdx s = some j → j < s.length := by
  induction s with
  | nil => intro j h; cases h
  | cons c rest ih =>
    intro j h
    simp only [Pokemon.findTruncIdx] at h
    by_cases htr : Pokemon.truncMarkerMatch (c :: rest) = true
    · rw [if_pos htr] at h
      cases h
      simp
    · rw [if_neg htr] at h
      rcases Option.map_eq_some'.mp h with ⟨j', hj', rfl⟩
      have := ih j' hj'
      simp only [List.length_cons]
      omega

theorem findTruncIdx_short_of_no_occ (s : RStr) :
    specFirstOcc s = none → ∀ j, Pokemon.findTruncIdx s = some j → s.length < j + 8 := by
  induction s with
  | nil => intro _ j h; cases h
  | cons c rest ih =>
    intro hno j h
    simp only [specFirstOcc] at hno
    have hm : specMarkerHere (c :: rest) = false := by
      by_cases hm' : specMarkerHere (c :: rest) = true
      · rw [if_pos hm'] at hno; cases hno
      · revert hm'; cases specMarkerHere (c :: rest) <;> simp
    have hrest : specFirstOcc rest = none := by
      rw [if_neg (by rw [hm]; exact Bool.false_ne_true)] at hno
      exact Option.map_eq_none'.mp hno
    simp only [Pokemon.findTruncIdx] at h
    by_cases htr : Pokemon.truncMarkerMatch (c :: rest) = true
    · rw [if_pos htr] at h
      cases h
      rw [specMarkerHere_as_trunc, htr, Bool.and_true] at hm
      have := of_decide_eq_false hm
      simp only [List.length_cons] at this ⊢
      omega
    · rw [if_neg htr] at h
      rcases Option.map_eq_some'.mp h with ⟨j', hj', rfl⟩
      have := ih hrest j' hj'
      simp only [List.length_cons]
      omega

theorem pokemon_extract_ascii (s : RStr) (hs : ∀ c ∈ s, c < 0x80) :
    Pokemon.extract_pokemon_name s = some (asciiExtract s) := by
  rcases hocc : specFirstOcc s with _ | i
  · simp only [asciiExtract, hocc]
    rcases hft : Pokemon.findTruncIdx s with _ | j
    · simp [Pokemon.extract_pokemon_name, hft]
    · have hj := findTruncIdx_lt_length s j hft
      have hshort := findTruncIdx_short_of_no_occ s hocc j hft
      have hslice := sliceFrom_ascii s j hs (le_of_lt hj)
      have hnone : nthCharOffset (s.drop j) VS_WILD_PATTERN.length = none := by
        apply nthCharOffset_none
        simp only [List.length_drop]
        show s.length - j ≤ 8
        omega
      simp [Pokemon.extract_pokemon_name, hft, hslice, hnone]
  · simp only [asciiExtract, hocc]
    have hft := findTruncIdx_of_specFirstOcc s i hocc
    have hlen := specFirstOcc_le s i hocc
    have hslice1 := sliceFrom_ascii s i hs (by omega)
    by_cases hcase : s.length = i + 8
    · have hn : nthCharOffset (s.drop i) VS_WILD_PATTERN.length = none := by
        apply nthCharOffset_none
        simp only [List.length_drop]
        show s.length - i ≤ 8
        omega
      have hdrop : s.drop (i + 8) = [] := List.drop_eq_nil_of_le (by omega)
      rw [hdrop]
      simp [Pokemon.extract_pokemon_name, hft, hslice1, hn, firstTokenOpt]
    · have hlt : i + 8 < s.length := by omega
      have hn : nthCharOffset (s.drop i) VS_WILD_PATTERN.length = some 8 := by
        have h8 : (8 : Nat) < (s.drop i).length := by
          simp only [List.length_drop]
          omega
        have := nthCharOffset_ascii (s.drop i) 8
          (fun u hu => hs u (List.mem_of_mem_drop hu)) h8
        simpa using this
      have hslice2 := sliceFrom_ascii s (i + 8) hs (by omega)
      simp only [Pokemon.extract_pokemon_name, hft, hslice1, hn, hslice2]
      have hdw : firstTokenOpt (List.dropWhile isRustWhitespace (s.drop (i + 8)))
          = firstTokenOpt (s.drop (i + 8)) := by
        rw [firstTokenOpt, firstTokenOpt, dropWhile_dropWhile]
      rw [hdw]
      rcases htok : firstTokenOpt (s.drop (i + 8)) with _ | tok
      · rfl
      · have hne := firstTokenOpt_nonempty _ tok htok
        simp [hne]

theorem main_extract_ascii (s : RStr) (hs : ∀ c ∈ s, c < 0x80) :
    Main.extract_pokemon_name s = some (asciiExtract s) := by
  have hup : to_uppercase s = s.map asciiUpper := to_uppercase_ascii s hs
  have hupascii : ∀ c ∈ s.map asciiUpper, c < 0x80 := by
    intro c hc
    rcases List.mem_map.mp hc with ⟨u, hu, rfl⟩
    exact asciiUpper_lt u (hs u hu)
  have hfind : findSub (to_uppercase s) VS_WILD_PATTERN = specFirstOcc s := by
    rw [hup, findSub_ascii _ _ hupascii, specFirstOcc_eq_firstPrefixIdx s hs]
  have hsz : utf8Size VS_WILD_PATTERN = 8 := by decide
  rcases hocc : specFirstOcc s with _ | i
  · simp only [asciiExtract, hocc]
    simp [Main.extract_pokemon_name, hfind, hocc]
  · simp only [asciiExtract, hocc]
    have hlen := specFirstOcc_le s i hocc
    have hslice := sliceFrom_ascii s (i + 8) hs (by omega)
    simp only [Main.extract_pokemon_name, hfind, hocc, hsz, hslice]
    have hdw : firstTokenOpt (List.dropWhile isRustWhitespace (s.drop (i + 8)))
        = firstTokenOpt (s.drop (i + 8)) := by
      rw [firstTokenOpt, firstTokenOpt, dropWhile_dropWhile]
    rw [hdw]
    rcases htok : firstTokenOpt (s.drop (i + 8)) with _ | tok
    · rfl
    · have hne := firstTokenOpt_nonempty _ tok htok
      simp [hne]

end Protean

namespace Protean

/-- C3 counterexample: on the non-ASCII text `"é vs. wild X"` the marker
occurs ASCII case-insensitively at character index 2, followed by a space
and the non-empty token `"X"`, yet `extract_pokemon_name` (src/pokemon.rs)
returns `Some("d")`: the character ordinal 2 is used as a byte index into
the UTF-8 text, two bytes short because `'é'` encodes in two bytes, so the
token is read from inside the word `"wild"`. -/
theorem pokemon_extract_wrong_token_on_nonascii :
    specFirstOcc [0xE9, 0x20, 0x76, 0x73, 0x2E, 0x20, 0x77, 0x69, 0x6C, 0x64, 0x20, 0x58]
      = some 2
    ∧ firstTokenOpt (List.drop 10
        [0xE9, 0x20, 0x76, 0x73, 0x2E, 0x20, 0x77, 0x69, 0x6C, 0x64, 0x20, 0x58])
      = some [0x58]
    ∧ Pokemon.extract_pokemon_name
        [0xE9, 0x20, 0x76, 0x73, 0x2E, 0x20, 0x77, 0x69, 0x6C, 0x64, 0x20, 0x58]
      = some (some [0x64])
    ∧ ([0x64] : RStr) ≠ [0x58] := by decide

/-- C3 (amended): on ASCII text the contract holds: if the first ASCII
case-insensitive occurrence of the marker (at character index `i`) is
followed — after optional whitespace — by a non-empty whitespace-delimited
token `tok`, `extract_pokemon_name` (src/pokemon.rs) returns exactly
`Some tok`; if the marker does not occur, or occurs with no non-empty
token after it, it returns `None`.  (On non-ASCII text the
character-ordinal/byte-offset confusion breaks the claim, as the
counterexample shows.) -/
theorem extract_pokemon_name_ascii_contract (s : RStr) (hs : isAsciiStr s = true) :
    (∀ i tok, specFirstOcc s = some i → firstTokenOpt (s.drop (i + 8)) = some tok →
       Pokemon.extract_pokemon_name s = some (some tok))
    ∧ (specFirstOcc s = none → Pokemon.extract_pokemon_name s = some none)
    ∧ (∀ i, specFirstOcc s = some i → firstTokenOpt (s.drop (i + 8)) = none →
       Pokemon.extract_pokemon_name s = some none) := by
  have hs' := (isAsciiStr_iff s).mp hs
  have hpk := pokemon_extract_ascii s hs'
  refine ⟨?_, ?_, ?_⟩
  · intro i tok hi htok
    rw [hpk]
    simp only [asciiExtract, hi]
    rw [htok]
  · intro hnone
    rw [hpk]
    simp only [asciiExtract, hnone]
  · intro i hi htok
    rw [hpk]
    simp only [asciiExtract, hi]
    rw [htok]

/-- Closed instance of the amended C3 on `"VS. WILD PIDGEY"`. -/
theorem extract_pokemon_name_ascii_contract_witness :
    Pokemon.extract_pokemon_name
        [0x56, 0x53, 0x2E, 0x20, 0x57, 0x49, 0x4C, 0x44, 0x20, 0x50, 0x49, 0x44, 0x47, 0x45, 0x59]
      = some (some [0x50, 0x49, 0x44, 0x47, 0x45, 0x59]) :=
  (extract_pokemon_name_ascii_contract
      [0x56, 0x53, 0x2E, 0x20, 0x57, 0x49, 0x4C, 0x44, 0x20, 0x50, 0x49, 0x44, 0x47, 0x45, 0x59]
      (by decide)).1 0 [0x50, 0x49, 0x44, 0x47, 0x45, 0x59] (by decide) (by decide)

/-- C10 counterexample: the two implementations disagree on the non-ASCII
text `"é vs. wild X"`: the src/main.rs version byte-slices after the
marker's byte offset in the uppercased text (here equal to the original's)
and returns `Some("X")`, while the src/pokemon.rs version uses the
character ordinal as a byte offset and returns `Some("d")`. -/
theorem extractors_disagree_on_nonascii :
    Main.extract_pokemon_name
        [0xE9, 0x20, 0x76, 0x73, 0x2E, 0x20, 0x77, 0x69, 0x6C, 0x64, 0x20, 0x58]
      = some (some [0x58])
    ∧ Pokemon.extract_pokemon_name
        [0xE9, 0x20, 0x76, 0x73, 0x2E, 0x20, 0x77, 0x69, 0x6C, 0x64, 0x20, 0x58]
      = some (some [0x64])
    ∧ Main.extract_pokemon_name
        [0xE9, 0x20, 0x76, 0x73, 0x2E, 0x20, 0x77, 0x69, 0x6C, 0x64, 0x20, 0x58]
      ≠ Pokemon.extract_pokemon_name
        [0xE9, 0x20, 0x76, 0x73, 0x2E, 0x20, 0x77, 0x69, 0x6C, 0x64, 0x20, 0x58] := by decide

/-- C10 (amended): on every ASCII string the two implementations return the
same result and both are defined — neither reaches the panic case
(`Option.none` of the outer `Option`); on non-ASCII input they diverge, as
witnessed by the counterexample. -/
theorem extractors_agree_on_ascii (s : RStr) (hs : isAsciiStr s = true) :
    Main.extract_pokemon_name s = Pokemon.extract_pokemon_name s
    ∧ Main.extract_pokemon_name s ≠ none
    ∧ Pokemon.extract_pokemon_name s ≠ none := by
  have hs' := (isAsciiStr_iff s).mp hs
  have hm := main_extract_ascii s hs'
  have hp := pokemon_extract_ascii s hs'
  refine ⟨?_, ?_, ?_⟩
  · rw [hm, hp]
  · rw [hm]; exact Option.some_ne_none _
  · rw [hp]; exact Option.some_ne_none _

/-- Closed instance of the amended C10. -/
theorem extractors_agree_on_ascii_witness :
    Main.extract_pokemon_name
        [0x56, 0x53, 0x2E, 0x20, 0x57, 0x49, 0x4C, 0x44, 0x20, 0x50, 0x49, 0x44, 0x47, 0x45, 0x59]
      = Pokemon.extract_pokemon_name
        [0x56, 0x53, 0x2E, 0x20, 0x57, 0x49, 0x4C, 0x44, 0x20, 0x50, 0x49, 0x44, 0x47, 0x45, 0x59]
    ∧ Main.extract_pokemon_name
        [0x56, 0x53, 0x2E, 0x20, 0x57, 0x49, 0x4C, 0x44, 0x20, 0x50, 0x49, 0x44, 0x47, 0x45, 0x59]
      ≠ none
    ∧ Pokemon.extract_pokemon_name
        [0x56, 0x53, 0x2E, 0x20, 0x57, 0x49, 0x4C, 0x44, 0x20, 0x50, 0x49, 0x44, 0x47, 0x45, 0x59]
      ≠ none :=
  extractors_agree_on_ascii
    [0x56, 0x53, 0x2E, 0x20, 0x57, 0x49, 0x4C, 0x44, 0x20, 0x50, 0x49, 0x44, 0x47, 0x45, 0x59]
    (by decide)

end Protean
